import Mathlib

/-!
Shallow embedding of `pan-pingable-hosts` (`src/main.go`) and proofs about it.

The program downloads a firewall ARP cache, groups its entries by interface
(`main.go` lines 99-102), harvests up to `numAddrs` pingable addresses per
interface (`getPingableAddresses`, lines 133-155), and prints the union of the
harvested addresses sorted by the byte value of the parsed IP
(lines 113-125).

The network-facing pieces (`pingAddr` consulting the wire, `getArpCache`) are
modelled as injected oracles: a pure prober `String → Bool` (did the single
probe packet come back with zero loss, i.e. `stats.PacketLoss == 0`) and, for
the abort-on-failure claims, a fallible prober `String → Except Unit Bool`
whose `error` models the `log.Fatalf` / `panic` exit of `pingAddr`
(lines 160-172).
-/

namespace PanPingable

/-- One ARP-cache entry, `main.go` lines 36-39: the `Interface` struct with an
interface name and a textual IP address. -/
structure Interface where
  name : String
  address : String
deriving DecidableEq

/-- One step of the grouping loop of `main.go` lines 100-102:
`interfaces[int.Name] = append(interfaces[int.Name], int.Address)`.
The Go map is modelled as a total function from interface name to the slice of
addresses accumulated so far (absent key = empty slice, matching Go's
zero-value semantics for `append` on a missing key). -/
def groupStep (interfaces : String → List String) (entry : Interface) :
    String → List String :=
  fun k => if k = entry.name then interfaces entry.name ++ [entry.address] else interfaces k

/-- The Interface Grouper, `main.go` lines 99-102: fold `groupStep` over the
ARP entries in input order, starting from the empty map. -/
def groupByInterface (entries : List Interface) : String → List String :=
  entries.foldl groupStep (fun _ => [])

/-- Models `strings.HasPrefix(addr, "0")` (`main.go` line 138).  For a UTF-8
string, having the single byte `'0'` as prefix is exactly having `'0'` as
first character. -/
def startsWithZero (s : String) : Bool :=
  match s.data with
  | c :: _ => c == '0'
  | [] => false

/-- The loop body of `getPingableAddresses`, `main.go` lines 136-152,
instrumented with the list of addresses actually passed to `pingAddr`
(`probed`), so that never-probed claims can be stated.  Faithful control flow:
skip when the address starts with `"0"`; otherwise probe, append on zero
packet loss, and `break` when `len(pingableAddrs) == numAddrs` is checked
after the probe.  `numAddrs` is a Go `int`, hence `Int`. -/
def harvestLoop (prober : String → Bool) (numAddrs : Int) :
    List String → List String → List String → List String × List String
  | [], pingableAddrs, probed => (pingableAddrs, probed)
  | addr :: rest, pingableAddrs, probed =>
    if startsWithZero addr then
      harvestLoop prober numAddrs rest pingableAddrs probed
    else
      let pingableAddrs' := if prober addr then pingableAddrs ++ [addr] else pingableAddrs
      if (pingableAddrs'.length : Int) = numAddrs then (pingableAddrs', probed ++ [addr])
      else harvestLoop prober numAddrs rest pingableAddrs' (probed ++ [addr])

/-- `getPingableAddresses` (`main.go` lines 133-155) together with the list of
probed addresses.  The `timeout` parameter of the Go function is only ever
forwarded to `pingAddr`, so it is absorbed into the prober oracle. -/
def getPingableAddressesRun (prober : String → Bool) (addrs : List String)
    (numAddrs : Int) : List String × List String :=
  harvestLoop prober numAddrs addrs [] []

/-- The return value of `getPingableAddresses` (`main.go` lines 133-155). -/
def getPingableAddresses (prober : String → Bool) (addrs : List String)
    (numAddrs : Int) : List String :=
  (getPingableAddressesRun prober addrs numAddrs).1

/-- `getPingableAddresses` with the fallible prober: `pingAddr` terminates the
whole process via `log.Fatalf` when `pinger.Run()` fails (`main.go` lines
169-172), modelled as an `Except.error` that propagates out of the loop. -/
def harvestLoopE (prober : String → Except Unit Bool) (numAddrs : Int) :
    List String → List String → Except Unit (List String)
  | [], pingableAddrs => .ok pingableAddrs
  | addr :: rest, pingableAddrs =>
    if startsWithZero addr then
      harvestLoopE prober numAddrs rest pingableAddrs
    else
      match prober addr with
      | .error e => .error e
      | .ok reachable =>
        let pingableAddrs' := if reachable then pingableAddrs ++ [addr] else pingableAddrs
        if (pingableAddrs'.length : Int) = numAddrs then .ok pingableAddrs'
        else harvestLoopE prober numAddrs rest pingableAddrs'

/-- `getPingableAddresses` under the fallible prober. -/
def getPingableAddressesE (prober : String → Except Unit Bool)
    (addrs : List String) (numAddrs : Int) : Except Unit (List String) :=
  harvestLoopE prober numAddrs addrs []

/-- The harvesting loop of `main.go` lines 107-110: concatenate the
per-interface results; a fatal probe failure anywhere aborts the run. -/
def harvestAllE (prober : String → Except Unit Bool) (numAddrs : Int) :
    List (List String) → Except Unit (List String)
  | [] => .ok []
  | g :: gs =>
    match getPingableAddressesE prober g numAddrs with
    | .error e => .error e
    | .ok r =>
      match harvestAllE prober numAddrs gs with
      | .error e => .error e
      | .ok rs => .ok (r ++ rs)

/-- Split a character list at `'.'`, modelling the field decomposition that
`net.parseIPv4` performs byte by byte. -/
def splitOnDot : List Char → List (List Char)
  | [] => [[]]
  | c :: rest =>
    if c = '.' then [] :: splitOnDot rest
    else match splitOnDot rest with
      | f :: fs => (c :: f) :: fs
      | [] => [[c]]

/-- Decimal value of a digit list (digits guaranteed by the caller). -/
def digitsToNat (cs : List Char) : Nat :=
  cs.foldl (fun acc c => acc * 10 + (c.toNat - 48)) 0

/-- One dotted-quad field, as accepted by Go `net.parseIPv4` via `dtoi`:
at least one digit, no extra leading zero (Go 1.17+), value at most 255. -/
def parseOctet (cs : List Char) : Option Nat :=
  if cs.isEmpty then none
  else if !cs.all Char.isDigit then none
  else if 1 < cs.length && cs.head? == some '0' then none
  else
    let n := digitsToNat cs
    if n ≤ 255 then some n else none

/-- First separator character (`'.'` or `':'`) of the address, the dispatch
`net.ParseIP` uses to choose between its IPv4 and IPv6 parsers. -/
def firstSep : List Char → Option Char
  | [] => none
  | c :: rest => if c = '.' ∨ c = ':' then some c else firstSep rest

/-- The 16-byte IPv4-in-IPv6 representation `v4InV6` that Go's
`net.ParseIP` returns for a dotted quad `a.b.c.d`. -/
def v4InV6Bytes (a b c d : Nat) : List Nat :=
  [0, 0, 0, 0, 0, 0, 0, 0, 0, 0, 255, 255, a, b, c, d]

/-- Models `net.ParseIP` (`main.go` line 116) on the address strings this
program handles: a string whose first separator is `'.'` is parsed as a
dotted quad (four fields, each a decimal 0-255 without leading zeros),
yielding the 16-byte `v4InV6` form; anything else yields `none`, which
models Go's `nil` result.  The IPv6 branch of `net.ParseIP` (first separator
`':'`) is not modelled: ARP-cache addresses handled by this tool are IPv4. -/
def parseIP (s : String) : Option (List Nat) :=
  match firstSep s.data with
  | some '.' =>
    match splitOnDot s.data with
    | [a, b, c, d] =>
      match parseOctet a, parseOctet b, parseOctet c, parseOctet d with
      | some x, some y, some z, some w => some (v4InV6Bytes x y z w)
      | _, _, _, _ => none
    | _ => none
  | _ => none

/-- The byte slice that actually enters the sort at `main.go` line 116:
`net.ParseIP` returns `nil` (the empty byte slice, for comparison purposes)
on a parse failure, and `main` performs no error check. -/
def ipBytes (s : String) : List Nat :=
  (parseIP s).getD []

/-- `bytes.Compare x y < 0`: strict lexicographic order on byte slices,
the comparison used by the `sort.Slice` closure at `main.go` lines 118-120. -/
def bytesCompareLt : List Nat → List Nat → Bool
  | [], [] => false
  | [], _ :: _ => true
  | _ :: _, [] => false
  | a :: as, b :: bs => if a < b then true else if b < a then false else bytesCompareLt as bs

/-- The non-strict order a correct `sort.Slice` run establishes between
adjacent elements: `¬ (bytes.Compare y x < 0)`. -/
def ipLe (x y : List Nat) : Prop := bytesCompareLt y x = false

instance : DecidableRel ipLe :=
  fun x y => inferInstanceAs (Decidable (bytesCompareLt y x = false))

/-- The Aggregator/Sorter of `main.go` lines 113-120: parse every harvested
address with `net.ParseIP` (no error check — failures become `nil`) and sort
the byte slices ascending by `bytes.Compare`.  Since `ipLe` is antisymmetric
on byte slices, the sorted permutation is unique, so insertion sort computes
exactly what `sort.Slice` leaves in the slice. -/
def sortPingableHosts (pingableHosts : List String) : List (List Nat) :=
  List.insertionSort ipLe (pingableHosts.map ipBytes)

/-- End-to-end core of `main` from harvesting to the sorted output
(`main.go` lines 107-125) under the fallible prober: any probe failure
aborts before anything is printed. -/
def mainOutputE (prober : String → Except Unit Bool) (numAddrs : Int)
    (groups : List (List String)) : Except Unit (List (List Nat)) :=
  match harvestAllE prober numAddrs groups with
  | .error e => .error e
  | .ok hosts => .ok (sortPingableHosts hosts)

/-- A prober for which every address answers the probe. -/
def proberAll : String → Bool := fun _ => true

/-- A fallible prober whose underlying mechanism always fails
(e.g. no privilege to open a raw ICMP socket). -/
def proberFail : String → Except Unit Bool := fun _ => .error ()

theorem harvestLoop_nil (prober : String → Bool) (N : Int) (acc probed : List String) :
    harvestLoop prober N [] acc probed = (acc, probed) := rfl

theorem harvestLoop_cons_skip (prober : String → Bool) (N : Int)
    (addr : String) (rest acc probed : List String)
    (hz : startsWithZero addr = true) :
    harvestLoop prober N (addr :: rest) acc probed =
      harvestLoop prober N rest acc probed := by
  simp [harvestLoop, hz]

theorem harvestLoop_cons_reach_break (prober : String → Bool) (N : Int)
    (addr : String) (rest acc probed : List String)
    (hz : startsWithZero addr = false) (hp : prober addr = true)
    (hb : (acc.length : Int) + 1 = N) :
    harvestLoop prober N (addr :: rest) acc probed =
      (acc ++ [addr], probed ++ [addr]) := by
  simp [harvestLoop, hz, hp, hb]

theorem harvestLoop_cons_reach_go (prober : String → Bool) (N : Int)
    (addr : String) (rest acc probed : List String)
    (hz : startsWithZero addr = false) (hp : prober addr = true)
    (hb : ¬ (acc.length : Int) + 1 = N) :
    harvestLoop prober N (addr :: rest) acc probed =
      harvestLoop prober N rest (acc ++ [addr]) (probed ++ [addr]) := by
  simp [harvestLoop, hz, hp, hb]

theorem harvestLoop_cons_noreach_break (prober : String → Bool) (N : Int)
    (addr : String) (rest acc probed : List String)
    (hz : startsWithZero addr = false) (hp : prober addr = false)
    (hb : (acc.length : Int) = N) :
    harvestLoop prober N (addr :: rest) acc probed = (acc, probed ++ [addr]) := by
  simp [harvestLoop, hz, hp, hb]

theorem harvestLoop_cons_noreach_go (prober : String → Bool) (N : Int)
    (addr : String) (rest acc probed : List String)
    (hz : startsWithZero addr = false) (hp : prober addr = false)
    (hb : ¬ (acc.length : Int) = N) :
    harvestLoop prober N (addr :: rest) acc probed =
      harvestLoop prober N rest acc (probed ++ [addr]) := by
  simp [harvestLoop, hz, hp, hb]


/-- Every run of the harvest loop extends the accumulator and the probed list
with sublists of, respectively, the reachable non-placeholder candidates and
the non-placeholder candidates, in input order. -/
theorem harvestLoop_spec (prober : String → Bool) (N : Int) :
    ∀ (l acc probed : List String), ∃ s t,
      harvestLoop prober N l acc probed = (acc ++ s, probed ++ t) ∧
      s.Sublist (l.filter fun a => !startsWithZero a && prober a) ∧
      t.Sublist (l.filter fun a => !startsWithZero a)
  | [], acc, probed => ⟨[], [], by simp [harvestLoop_nil]⟩
  | addr :: rest, acc, probed => by
    cases hz : startsWithZero addr with
    | true =>
      obtain ⟨s, t, h1, h2, h3⟩ := harvestLoop_spec prober N rest acc probed
      refine ⟨s, t, ?_, ?_, ?_⟩
      · rw [harvestLoop_cons_skip prober N addr rest acc probed hz, h1]
      · simpa [List.filter_cons, hz] using h2
      · simpa [List.filter_cons, hz] using h3
    | false =>
      cases hp : prober addr with
      | true =>
        by_cases hb : (acc.length : Int) + 1 = N
        · refine ⟨[addr], [addr],
            harvestLoop_cons_reach_break prober N addr rest acc probed hz hp hb, ?_, ?_⟩
          · simp [List.filter_cons, hz, hp]
          · simp [List.filter_cons, hz]
        · obtain ⟨s, t, h1, h2, h3⟩ :=
            harvestLoop_spec prober N rest (acc ++ [addr]) (probed ++ [addr])
          refine ⟨addr :: s, addr :: t, ?_, ?_, ?_⟩
          · rw [harvestLoop_cons_reach_go prober N addr rest acc probed hz hp hb, h1]
            simp
          · simpa [List.filter_cons, hz, hp] using h2.cons₂ addr
          · simpa [List.filter_cons, hz] using h3.cons₂ addr
      | false =>
        by_cases hb : (acc.length : Int) = N
        · refine ⟨[], [addr], by
            simpa using harvestLoop_cons_noreach_break prober N addr rest acc probed hz hp hb,
            by simp, ?_⟩
          simp [List.filter_cons, hz]
        · obtain ⟨s, t, h1, h2, h3⟩ :=
            harvestLoop_spec prober N rest acc (probed ++ [addr])
          refine ⟨s, addr :: t, ?_, ?_, ?_⟩
          · rw [harvestLoop_cons_noreach_go prober N addr rest acc probed hz hp hb, h1]
            simp
          · simpa [List.filter_cons, hz, hp] using h2
          · simpa [List.filter_cons, hz] using h3.cons₂ addr

/-- While the accumulator is strictly below the quota, it never ends above
the quota: the break fires exactly when the quota is reached. -/
theorem harvestLoop_length_le (prober : String → Bool) (N : Int) :
    ∀ (l acc probed : List String), (acc.length : Int) < N →
      ((harvestLoop prober N l acc probed).1.length : Int) ≤ N
  | [], acc, probed, h => by simpa [harvestLoop_nil] using le_of_lt h
  | addr :: rest, acc, probed, h => by
    cases hz : startsWithZero addr with
    | true =>
      rw [harvestLoop_cons_skip prober N addr rest acc probed hz]
      exact harvestLoop_length_le prober N rest acc probed h
    | false =>
      cases hp : prober addr with
      | true =>
        by_cases hb : (acc.length : Int) + 1 = N
        · rw [harvestLoop_cons_reach_break prober N addr rest acc probed hz hp hb]
          simp only [List.length_append, List.length_cons, List.length_nil]
          push_cast
          omega
        · rw [harvestLoop_cons_reach_go prober N addr rest acc probed hz hp hb]
          refine harvestLoop_length_le prober N rest (acc ++ [addr]) (probed ++ [addr]) ?_
          simp only [List.length_append, List.length_cons, List.length_nil]
          push_cast
          omega
      | false =>
        by_cases hb : (acc.length : Int) = N
        · exact absurd hb (ne_of_lt h)
        · rw [harvestLoop_cons_noreach_go prober N addr rest acc probed hz hp hb]
          exact harvestLoop_length_le prober N rest acc (probed ++ [addr]) h

/-- If no accumulator length reachable from the current one can ever equal
the quota, the break never fires: every non-placeholder candidate is probed
and every reachable one is collected. -/
theorem harvestLoop_no_break (prober : String → Bool) (N : Int) :
    ∀ (l acc probed : List String), (∀ k : Nat, ((acc.length + k : Nat) : Int) ≠ N) →
      harvestLoop prober N l acc probed =
        (acc ++ l.filter (fun a => !startsWithZero a && prober a),
         probed ++ l.filter (fun a => !startsWithZero a))
  | [], acc, probed, _ => by simp [harvestLoop_nil]
  | addr :: rest, acc, probed, h => by
    cases hz : startsWithZero addr with
    | true =>
      rw [harvestLoop_cons_skip prober N addr rest acc probed hz,
        harvestLoop_no_break prober N rest acc probed h]
      simp [List.filter_cons, hz]
    | false =>
      cases hp : prober addr with
      | true =>
        have hb : ¬ (acc.length : Int) + 1 = N := by
          have h1 := h 1
          push_cast at h1 ⊢
          omega
        have h' : ∀ k : Nat, (((acc ++ [addr]).length + k : Nat) : Int) ≠ N := by
          intro k
          have hk := h (1 + k)
          simp only [List.length_append, List.length_cons, List.length_nil]
          push_cast at hk ⊢
          omega
        rw [harvestLoop_cons_reach_go prober N addr rest acc probed hz hp hb,
          harvestLoop_no_break prober N rest (acc ++ [addr]) (probed ++ [addr]) h']
        simp [List.filter_cons, hz, hp]
      | false =>
        have hb : ¬ (acc.length : Int) = N := by
          have h0 := h 0
          push_cast at h0 ⊢
          omega
        rw [harvestLoop_cons_noreach_go prober N addr rest acc probed hz hp hb,
          harvestLoop_no_break prober N rest acc (probed ++ [addr]) h]
        simp [List.filter_cons, hz, hp]

/-- Once the harvest loop has reached the quota on a prefix `l₁` of the
candidate list (starting short of the quota), the remaining candidates `l₂`
change nothing: neither the result nor the probed list. -/
theorem harvestLoop_append_of_reached (prober : String → Bool) (N : Int) :
    ∀ (l₁ l₂ acc probed : List String), (acc.length : Int) ≠ N →
      ((harvestLoop prober N l₁ acc probed).1.length : Int) = N →
      harvestLoop prober N (l₁ ++ l₂) acc probed = harvestLoop prober N l₁ acc probed
  | [], _, acc, probed, hne, hreach => by
    rw [harvestLoop_nil] at hreach
    exact absurd hreach hne
  | addr :: t, l₂, acc, probed, hne, hreach => by
    cases hz : startsWithZero addr with
    | true =>
      rw [harvestLoop_cons_skip prober N addr t acc probed hz] at hreach
      rw [List.cons_append, harvestLoop_cons_skip prober N addr (t ++ l₂) acc probed hz,
        harvestLoop_cons_skip prober N addr t acc probed hz]
      exact harvestLoop_append_of_reached prober N t l₂ acc probed hne hreach
    | false =>
      cases hp : prober addr with
      | true =>
        by_cases hb : (acc.length : Int) + 1 = N
        · rw [List.cons_append,
            harvestLoop_cons_reach_break prober N addr (t ++ l₂) acc probed hz hp hb,
            harvestLoop_cons_reach_break prober N addr t acc probed hz hp hb]
        · rw [harvestLoop_cons_reach_go prober N addr t acc probed hz hp hb] at hreach
          have hne' : ((acc ++ [addr]).length : Int) ≠ N := by
            simp only [List.length_append, List.length_cons, List.length_nil]
            exact_mod_cast hb
          rw [List.cons_append,
            harvestLoop_cons_reach_go prober N addr (t ++ l₂) acc probed hz hp hb,
            harvestLoop_cons_reach_go prober N addr t acc probed hz hp hb]
          exact harvestLoop_append_of_reached prober N t l₂ (acc ++ [addr])
            (probed ++ [addr]) hne' hreach
      | false =>
        by_cases hb : (acc.length : Int) = N
        · exact absurd hb hne
        · rw [harvestLoop_cons_noreach_go prober N addr t acc probed hz hp hb] at hreach
          rw [List.cons_append,
            harvestLoop_cons_noreach_go prober N addr (t ++ l₂) acc probed hz hp hb,
            harvestLoop_cons_noreach_go prober N addr t acc probed hz hp hb]
          exact harvestLoop_append_of_reached prober N t l₂ acc (probed ++ [addr]) hb hreach

/-- Leading placeholder candidates are skipped with no other effect. -/
theorem harvestLoop_skip_placeholders (prober : String → Bool) (N : Int) :
    ∀ (pre l acc probed : List String), (∀ b ∈ pre, startsWithZero b = true) →
      harvestLoop prober N (pre ++ l) acc probed = harvestLoop prober N l acc probed
  | [], _, _, _, _ => by simp
  | b :: pre, l, acc, probed, h => by
    have hb : startsWithZero b = true := h b (by simp)
    rw [List.cons_append, harvestLoop_cons_skip prober N b (pre ++ l) acc probed hb]
    exact harvestLoop_skip_placeholders prober N pre l acc probed
      (fun x hx => h x (by simp [hx]))

theorem bytesCompareLt_cons_iff (a b : Nat) (as bs : List Nat) :
    bytesCompareLt (a :: as) (b :: bs) = true ↔
      a < b ∨ (a = b ∧ bytesCompareLt as bs = true) := by
  simp only [bytesCompareLt]
  by_cases h1 : a < b
  · simp [h1]
  · by_cases h2 : b < a
    · simp [h1, h2]
      omega
    · have hab : a = b := by omega
      simp [h1, h2, hab]

theorem bytesCompareLt_irrefl : ∀ x : List Nat, bytesCompareLt x x = false
  | [] => rfl
  | a :: as => by simp [bytesCompareLt, bytesCompareLt_irrefl as]

theorem bytesCompareLt_trans :
    ∀ {x y z : List Nat}, bytesCompareLt x y = true → bytesCompareLt y z = true →
      bytesCompareLt x z = true
  | [], [], _, hxy, _ => by simp [bytesCompareLt] at hxy
  | [], _ :: _, [], _, hyz => by simp [bytesCompareLt] at hyz
  | [], _ :: _, _ :: _, _, _ => by simp [bytesCompareLt]
  | _ :: _, [], _, hxy, _ => by simp [bytesCompareLt] at hxy
  | _ :: _, _ :: _, [], _, hyz => by simp [bytesCompareLt] at hyz
  | a :: as, b :: bs, c :: cs, hxy, hyz => by
    rw [bytesCompareLt_cons_iff] at hxy hyz ⊢
    rcases hxy with h | ⟨rfl, h⟩
    · rcases hyz with h' | ⟨rfl, h'⟩
      · exact Or.inl (lt_trans h h')
      · exact Or.inl h
    · rcases hyz with h' | ⟨rfl, h'⟩
      · exact Or.inl h'
      · exact Or.inr ⟨rfl, bytesCompareLt_trans h h'⟩

theorem bytesCompareLt_connex :
    ∀ {x y : List Nat}, x ≠ y → bytesCompareLt x y = true ∨ bytesCompareLt y x = true
  | [], [], h => absurd rfl h
  | [], _ :: _, _ => Or.inl (by simp [bytesCompareLt])
  | _ :: _, [], _ => Or.inr (by simp [bytesCompareLt])
  | a :: as, b :: bs, h => by
    rw [bytesCompareLt_cons_iff, bytesCompareLt_cons_iff]
    by_cases hab : a = b
    · subst hab
      have hne : as ≠ bs := fun he => h (by rw [he])
      rcases bytesCompareLt_connex hne with h' | h'
      · exact Or.inl (Or.inr ⟨rfl, h'⟩)
      · exact Or.inr (Or.inr ⟨rfl, h'⟩)
    · rcases Nat.lt_or_ge a b with hlt | hge
      · exact Or.inl (Or.inl hlt)
      · exact Or.inr (Or.inl (by omega))

instance : IsTotal (List Nat) ipLe where
  total x y := by
    unfold ipLe
    by_cases h : bytesCompareLt y x = true
    · right
      by_cases h' : bytesCompareLt x y = true
      · have hxx := bytesCompareLt_trans h' h
        rw [bytesCompareLt_irrefl] at hxx
        exact absurd hxx (by simp)
      · simpa using h'
    · left
      simpa using h

instance : IsTrans (List Nat) ipLe where
  trans x y z hxy hyz := by
    unfold ipLe at hxy hyz ⊢
    by_cases hzx : bytesCompareLt z x = true
    · exfalso
      by_cases hzy : z = y
      · subst hzy
        simp [hxy] at hzx
      · rcases bytesCompareLt_connex hzy with h | h
        · simp [hyz] at h
        · have := bytesCompareLt_trans h hzx
          simp [hxy] at this
    · simpa using hzx

/-- `ipLe` is antisymmetric, so a sorted permutation is unique and any
correct sorting algorithm models `sort.Slice`. -/
theorem ipLe_antisymm {x y : List Nat} (hxy : ipLe x y) (hyx : ipLe y x) : x = y := by
  by_contra hne
  rcases bytesCompareLt_connex hne with h | h
  · unfold ipLe at hyx
    simp [hyx] at h
  · unfold ipLe at hxy
    simp [hxy] at h

theorem groupByInterface_foldl (k : String) :
    ∀ (entries : List Interface) (m : String → List String),
      (entries.foldl groupStep m) k =
        m k ++ (entries.filter fun e => e.name == k).map (fun e => e.address)
  | [], m => by simp
  | e :: rest, m => by
    rw [List.foldl_cons, groupByInterface_foldl k rest (groupStep m e)]
    by_cases hk : k = e.name
    · subst hk
      simp [groupStep, List.filter_cons]
    · have hk' : (e.name == k) = false := by
        simp [beq_iff_eq]
        exact fun he => hk he.symm
      simp [groupStep, hk, List.filter_cons, hk']

/-- An aborting probe inside any interface group aborts the whole
harvesting loop of `main`. -/
theorem harvestAllE_error (prober : String → Except Unit Bool) (N : Int) :
    ∀ (groups : List (List String)) (g : List String), g ∈ groups →
      getPingableAddressesE prober g N = .error () →
      harvestAllE prober N groups = .error ()
  | [], g, hg, _ => absurd hg (List.not_mem_nil g)
  | g₀ :: gs, g, hg, he => by
    rcases List.mem_cons.mp hg with rfl | hg'
    · simp [harvestAllE, he]
    · have hrec := harvestAllE_error prober N gs g hg' he
      unfold harvestAllE
      cases h0 : getPingableAddressesE prober g₀ N with
      | error e => cases e; rfl
      | ok r => simp [hrec]

/-- C1, counterexample: with quota 0 and the single candidate `"1.1.1.1"`
answering the probe, `getPingableAddresses` does invoke the prober (the
probed list is nonempty) and does not return an empty result — the break
check `len(pingableAddrs) == numAddrs` runs only after a probe, so quota 0
does not prevent the first probe, and after one successful append the
length never equals 0 again. -/
theorem quota_zero_cex :
    (getPingableAddressesRun proberAll ["1.1.1.1"] 0).1 ≠ [] ∧
    (getPingableAddressesRun proberAll ["1.1.1.1"] 0).2 ≠ [] := by
  decide

/-- C1, amended: with quota 0, placeholders are still skipped, the first
non-placeholder candidate (if any) is probed; if it is unreachable the loop
breaks at once with an empty result, and if it is reachable every remaining
non-placeholder candidate is probed and every reachable one is returned. -/
theorem quota_zero_behavior (prober : String → Bool) (addrs : List String) :
    ((∀ a ∈ addrs, startsWithZero a = true) →
      getPingableAddressesRun prober addrs 0 = ([], [])) ∧
    (∀ pre a rest, addrs = pre ++ a :: rest →
      (∀ b ∈ pre, startsWithZero b = true) → startsWithZero a = false →
      (prober a = false → getPingableAddressesRun prober addrs 0 = ([], [a])) ∧
      (prober a = true →
        getPingableAddressesRun prober addrs 0 =
          (a :: rest.filter (fun x => !startsWithZero x && prober x),
           a :: rest.filter (fun x => !startsWithZero x)))) := by
  constructor
  · intro h
    have := harvestLoop_skip_placeholders prober 0 addrs [] [] [] h
    simpa [getPingableAddressesRun, harvestLoop_nil] using this
  · rintro pre a rest rfl hpre hza
    have hskip := harvestLoop_skip_placeholders prober 0 pre (a :: rest) [] [] hpre
    constructor
    · intro hpa
      have hstep := harvestLoop_cons_noreach_break prober 0 a rest [] [] hza hpa (by simp)
      simp [getPingableAddressesRun, hskip, hstep]
    · intro hpa
      have hstep := harvestLoop_cons_reach_go prober 0 a rest [] [] hza hpa (by simp)
      have hrest := harvestLoop_no_break prober 0 rest [a] [a]
        (fun k => by simp only [List.length_cons, List.length_nil]; omega)
      simp [getPingableAddressesRun, hskip, hstep, hrest]

/-- Witness for the amended C1 at a concrete input: one leading placeholder,
then two reachable candidates, quota 0 — both are probed and returned. -/
theorem quota_zero_behavior_witness :
    getPingableAddressesRun proberAll ["0.0.0.0", "1.1.1.1", "5.5.5.5"] 0 =
      (["1.1.1.1", "5.5.5.5"], ["1.1.1.1", "5.5.5.5"]) := by
  have h := ((quota_zero_behavior proberAll ["0.0.0.0", "1.1.1.1", "5.5.5.5"]).2
    ["0.0.0.0"] "1.1.1.1" ["5.5.5.5"] rfl (by decide) (by decide)).2 (by decide)
  exact h.trans (by decide)

/-- C2, counterexample: with quota 0 and one reachable candidate the result
has length 1, exceeding `min(quota, number of non-placeholder candidates)
= 0`. -/
theorem harvest_length_bound_cex :
    ¬ ((getPingableAddresses proberAll ["2.2.2.2"] 0).length ≤
        min 0 (["2.2.2.2"].filter fun a => !startsWithZero a).length) := by
  decide

/-- C2, amended: the harvest result is always an order-preserving
subsequence of the candidate list and never longer than the number of
non-placeholder candidates; the quota bound `length ≤ N` additionally holds
whenever `N ≥ 1` (it can fail for `N = 0`). -/
theorem harvest_sublist_length_bound (prober : String → Bool)
    (addrs : List String) (N : Int) :
    (getPingableAddresses prober addrs N).Sublist addrs ∧
    (getPingableAddresses prober addrs N).length ≤
      (addrs.filter fun a => !startsWithZero a).length ∧
    (1 ≤ N → ((getPingableAddresses prober addrs N).length : Int) ≤ N) := by
  obtain ⟨s, t, h1, h2, h3⟩ := harvestLoop_spec prober N addrs [] []
  have hres : getPingableAddresses prober addrs N = s := by
    simp [getPingableAddresses, getPingableAddressesRun, h1]
  refine ⟨?_, ?_, ?_⟩
  · rw [hres]
    exact h2.trans (List.filter_sublist addrs)
  · rw [hres]
    refine List.Sublist.length_le (h2.trans ?_)
    refine List.monotone_filter_right addrs ?_
    intro x hx
    exact (Bool.and_eq_true _ _).mp hx |>.1
  · intro hN
    have h0 : ((([] : List String)).length : Int) < N := by
      simp only [List.length_nil]
      omega
    have := harvestLoop_length_le prober N addrs [] [] h0
    simpa [getPingableAddresses, getPingableAddressesRun] using this

/-- Witness for the amended C2 at quota 1 with two reachable candidates. -/
theorem harvest_sublist_length_bound_witness :
    (getPingableAddresses proberAll ["6.6.6.6", "8.8.8.8"] 1).Sublist
        ["6.6.6.6", "8.8.8.8"] ∧
    ((getPingableAddresses proberAll ["6.6.6.6", "8.8.8.8"] 1).length : Int) ≤ 1 :=
  ⟨(harvest_sublist_length_bound proberAll ["6.6.6.6", "8.8.8.8"] 1).1,
   (harvest_sublist_length_bound proberAll ["6.6.6.6", "8.8.8.8"] 1).2.2 (by decide)⟩

/-- C3: once the harvest of a prefix of the candidate list has reached a
quota `N ≥ 1`, appending further candidates changes nothing: the result is
identical and none of the later candidates is ever probed. -/
theorem early_exit (prober : String → Bool) (N : Int) (pre rest : List String)
    (hN : 1 ≤ N)
    (hreach : ((getPingableAddresses prober pre N).length : Int) = N) :
    getPingableAddressesRun prober (pre ++ rest) N =
      getPingableAddressesRun prober pre N := by
  unfold getPingableAddressesRun
  refine harvestLoop_append_of_reached prober N pre rest [] [] ?_ ?_
  · simp only [List.length_nil]
    omega
  · simpa [getPingableAddresses, getPingableAddressesRun] using hreach

/-- Witness for C3: quota 1 is reached on the first candidate, so the second
candidate is never probed. -/
theorem early_exit_witness :
    getPingableAddressesRun proberAll (["1.1.1.1"] ++ ["2.2.2.2"]) 1 =
      getPingableAddressesRun proberAll ["1.1.1.1"] 1 :=
  early_exit proberAll 1 ["1.1.1.1"] ["2.2.2.2"] (by decide) (by decide)

/-- C4: an address whose textual form begins with the digit `0` never
appears in the probed list (it is never passed to the prober) and never
appears in the harvest result. -/
theorem placeholders_never_probed (prober : String → Bool) (addrs : List String)
    (N : Int) (a : String)
    (h : a ∈ (getPingableAddressesRun prober addrs N).2 ∨
         a ∈ (getPingableAddressesRun prober addrs N).1) :
    startsWithZero a = false := by
  obtain ⟨s, t, h1, h2, h3⟩ := harvestLoop_spec prober N addrs [] []
  have hrun : getPingableAddressesRun prober addrs N = (s, t) := by
    simpa [getPingableAddressesRun] using h1
  rw [hrun] at h
  rcases h with h | h
  · have := List.of_mem_filter (h3.subset h)
    simpa using this
  · have := List.of_mem_filter (h2.subset h)
    simp only [Bool.and_eq_true] at this
    simpa using this.1

/-- Witness for C4: in a run over a placeholder and a real candidate, the
probed address is not a placeholder. -/
theorem placeholders_never_probed_witness :
    startsWithZero "9.9.9.9" = false :=
  placeholders_never_probed proberAll ["0.0.0.0", "9.9.9.9"] 5 "9.9.9.9"
    (Or.inl (by decide))

/-- C5: the final output is sorted ascending by the byte value of the parsed
address (the `bytes.Compare` order on the parsed octets, not string order);
in particular `10.0.0.1, 10.0.0.2, 10.0.0.10` is the order produced for the
mixed example, with `10.0.0.2` before `10.0.0.10`. -/
theorem output_sorted_by_ip_bytes :
    (∀ pingableHosts : List String,
      List.Sorted ipLe (sortPingableHosts pingableHosts)) ∧
    sortPingableHosts ["10.0.0.2", "10.0.0.10", "10.0.0.1"] =
      [v4InV6Bytes 10 0 0 1, v4InV6Bytes 10 0 0 2, v4InV6Bytes 10 0 0 10] := by
  constructor
  · intro hosts
    exact List.sorted_insertionSort ipLe _
  · decide

/-- C6, counterexample: `main` performs no check on the result of
`net.ParseIP` — a harvested address that does not parse (octet 256) becomes
the `nil` byte slice, and the run still produces output containing that
entry instead of failing. -/
theorem parse_failure_not_fatal_cex :
    parseIP "10.0.0.256" = none ∧ sortPingableHosts ["10.0.0.256"] = [[]] := by
  decide

/-- C6, amended: an address string that fails to parse does not abort the
run; it contributes a `nil` (empty) byte entry to the sorted output, and the
output still contains one entry per harvested address. -/
theorem parse_failure_yields_nil_entry (pingableHosts : List String)
    (h : String) (hmem : h ∈ pingableHosts) (hparse : parseIP h = none) :
    [] ∈ sortPingableHosts pingableHosts ∧
    (sortPingableHosts pingableHosts).length = pingableHosts.length := by
  have hperm : (sortPingableHosts pingableHosts).Perm (pingableHosts.map ipBytes) :=
    List.perm_insertionSort ipLe _
  constructor
  · refine hperm.mem_iff.mpr ?_
    have hnil : ipBytes h = [] := by simp [ipBytes, hparse]
    exact hnil ▸ List.mem_map_of_mem ipBytes hmem
  · simpa using hperm.length_eq

/-- Witness for the amended C6 at a concrete unparseable address. -/
theorem parse_failure_yields_nil_entry_witness :
    [] ∈ sortPingableHosts ["10.0.0.300"] ∧
    (sortPingableHosts ["10.0.0.300"]).length =
      (["10.0.0.300"] : List String).length :=
  parse_failure_yields_nil_entry ["10.0.0.300"] "10.0.0.300" (by decide) (by decide)

/-- C7: the sorted output is a permutation of the concatenation of the
per-interface harvest results (mapped through the parser), with no
deduplication: an address harvested on two interfaces appears twice. -/
theorem duplicates_preserved :
    (∀ groups : List (List String),
      (sortPingableHosts groups.flatten).Perm (groups.flatten.map ipBytes)) ∧
    (sortPingableHosts ([["192.168.1.5"], ["192.168.1.5"]].flatten)).count
        (v4InV6Bytes 192 168 1 5) = 2 := by
  constructor
  · intro groups
    exact List.perm_insertionSort ipLe _
  · decide

/-- C8: the Interface Grouper maps each interface name to exactly the
addresses of its records in input order with multiplicity, and an interface
name has a nonempty group precisely when it occurs among the records. -/
theorem grouper_keys_and_order (entries : List Interface) (k : String) :
    groupByInterface entries k =
      (entries.filter fun e => e.name == k).map (fun e => e.address) ∧
    (groupByInterface entries k ≠ [] ↔ k ∈ entries.map fun e => e.name) := by
  have h := groupByInterface_foldl k entries (fun _ => [])
  have heq : groupByInterface entries k =
      (entries.filter fun e => e.name == k).map (fun e => e.address) := by
    simpa [groupByInterface] using h
  refine ⟨heq, ?_⟩
  rw [heq, Ne, List.map_eq_nil_iff, List.filter_eq_nil_iff]
  push_neg
  simp [beq_iff_eq]

/-- C9: if the probing mechanism fails on a probe made while harvesting any
interface group (the `pinger.Run()` error that `pingAddr` turns into a fatal
exit), the whole run ends in the error state: no output value is produced,
so no result line — partial or otherwise — is ever printed. -/
theorem probe_failure_aborts_run (prober : String → Except Unit Bool) (N : Int)
    (groups : List (List String)) (g : List String) (hg : g ∈ groups)
    (he : getPingableAddressesE prober g N = .error ()) :
    mainOutputE prober N groups = .error () := by
  simp [mainOutputE, harvestAllE_error prober N groups g hg he]

/-- Witness for C9: a prober without socket privileges aborts a one-group
run. -/
theorem probe_failure_aborts_run_witness :
    mainOutputE proberFail 2 [["7.7.7.7"]] = .error () :=
  probe_failure_aborts_run proberFail 2 [["7.7.7.7"]] ["7.7.7.7"]
    (by decide) rfl

/-- C10: with a negative quota the break check `len(pingableAddrs) ==
numAddrs` can never fire (the length is a nonnegative count), so every
non-placeholder candidate is probed and every reachable one is returned,
with no upper bound from the quota. -/
theorem negative_quota_probes_all (prober : String → Bool) (addrs : List String)
    (N : Int) (hN : N < 0) :
    getPingableAddressesRun prober addrs N =
      (addrs.filter (fun a => !startsWithZero a && prober a),
       addrs.filter (fun a => !startsWithZero a)) := by
  unfold getPingableAddressesRun
  have h := harvestLoop_no_break prober N addrs [] []
    (fun k => by simp only [List.length_nil]; omega)
  simpa using h

/-- Witness for C10 at quota `-1` with two reachable candidates. -/
theorem negative_quota_probes_all_witness :
    getPingableAddressesRun proberAll ["3.3.3.3", "4.4.4.4"] (-1) =
      (["3.3.3.3", "4.4.4.4"].filter (fun a => !startsWithZero a && proberAll a),
       ["3.3.3.3", "4.4.4.4"].filter (fun a => !startsWithZero a)) :=
  negative_quota_probes_all proberAll ["3.3.3.3", "4.4.4.4"] (-1) (by decide)

end PanPingable
